import Mathlib

/-!
Verification of the JTKJ PicoRTOS Morse project.

Shallow embedding of the repository's core logic:

* the protocol encoder (`encoder_task` in src/src/main.c lines 246-319 and,
  with identical buffer logic, src/src/morse_project.c lines 217-285), and
* the input classifier (`input_task` in src/src/main.c lines 111-233).

The encoder owns a fixed 256-byte buffer `out` with a length counter `len`;
only the first `len` cells are ever read (the flush is `printf("%.*s", len, out)`),
so the live region is modelled as a `List Char`.  Each event mutates the
buffer and `EV_END_MSG` additionally flushes it; a run of the task is a fold
over the event list that collects the flushed messages in order.

The classifier's floating-point threshold comparisons
(`fabsf(ax) < 0.1f`, `fabsf(ax) > MOVE_THRESHOLD`, ...) are abstracted to
their boolean outcomes, which are inputs of a tick; all the control flow,
latching, and counter logic is translated verbatim.
-/

namespace MorseHat

/-- `morse_event_t` (main.c lines 61-67 / morse_project.c lines 67-73). -/
inductive MorseEvent where
  | dot
  | dash
  | gapLetter
  | gapWord
  | endMsg
deriving DecidableEq, Repr

/-- `#define TX_BUF_LEN 256` (main.c line 56). -/
def TX_BUF_LEN : Nat := 256

/-- The guarded space append shared by `EV_GAP_LETTER`, `EV_GAP_WORD` and
`EV_END_MSG`: `if (len && out[len-1] != ' ' && len + 1 < TX_BUF_LEN) out[len++] = ' ';`
(main.c lines 277, 284, 295). -/
def padSpace (b : List Char) : List Char :=
  if b ≠ [] ∧ b.getLast? ≠ some ' ' ∧ b.length + 1 < TX_BUF_LEN then b ++ [' '] else b

/-- The unconditional-space half of `EV_GAP_WORD`:
`if (len + 1 < TX_BUF_LEN) out[len++] = ' ';` (main.c lines 287-290). -/
def padSpace2 (b : List Char) : List Char :=
  if b.length + 1 < TX_BUF_LEN then b ++ [' '] else b

/-- The terminator append of `EV_END_MSG`:
`if (len + 2 < TX_BUF_LEN) { out[len++] = ' '; out[len++] = '\n'; }`
(main.c lines 298-301). -/
def padTerm (b : List Char) : List Char :=
  if b.length + 2 < TX_BUF_LEN then b ++ [' ', '\n'] else b

/-- One iteration of the encoder's `switch (ev)` (main.c lines 261-316):
the new buffer plus the message flushed by this event, if any.
`EV_END_MSG` flushes the whole buffer (`printf("%.*s", (int)len, out)`) and
resets `len` to 0. -/
def encStep (b : List Char) : MorseEvent → List Char × Option (List Char)
  | MorseEvent.dot =>
      (if b.length + 1 < TX_BUF_LEN then b ++ ['.'] else b, none)
  | MorseEvent.dash =>
      (if b.length + 1 < TX_BUF_LEN then b ++ ['-'] else b, none)
  | MorseEvent.gapLetter => (padSpace b, none)
  | MorseEvent.gapWord => (padSpace2 (padSpace b), none)
  | MorseEvent.endMsg => ([], some (padTerm (padSpace b)))

/-- The encoder loop folded over a list of received events, starting from
buffer `b`: final buffer plus the list of flushed messages in order. -/
def encRun (b : List Char) : List MorseEvent → List Char × List (List Char)
  | [] => (b, [])
  | e :: es =>
      let st := encStep b e
      let rest := encRun st.1 es
      (rest.1, st.2.toList ++ rest.2)

/-- The byte stream the encoder hands to the output sink when it starts from
the empty buffer (as `encoder_task` does): the flushed messages concatenated. -/
def encStream (evs : List MorseEvent) : List Char :=
  ((encRun [] evs).2).flatten

/-- All bytes the encoder has produced so far - flushed messages followed by
the in-progress buffer.  Auxiliary view used by the invariant proofs. -/
def encTotal (b : List Char) (evs : List MorseEvent) : List Char :=
  ((encRun b evs).2).flatten ++ (encRun b evs).1

/-- The list `l` ends with the byte string `suf`. -/
def endsWith (suf l : List Char) : Prop := ∃ s, l = s ++ suf

/-- The list contains three consecutive spaces somewhere. -/
def containsRun3 (l : List Char) : Prop := ∃ s t, l = s ++ ([' ', ' ', ' '] ++ t)

/-- The mutable task-local state of `input_task` (main.c lines 124-132):
tilt latches `x_tilted`/`y_tilted`, button edge state `btn_prev`, the press
counter `button_press_count` (a C `int` that is only ever 0-incremented,
modelled as `Nat`), and `last_movement_time` (a `uint32_t` that is
initialised to 0 and never written again). -/
structure InputState where
  x_tilted : Bool
  y_tilted : Bool
  btn_prev : Bool
  button_press_count : Nat
  last_movement_time : Nat
deriving DecidableEq, Repr

/-- The environment observed by one iteration of `input_task`'s loop.
The float threshold tests of main.c are abstracted to their outcomes:
`read_ok` is `ICM42670_read_sensor_data(...) == 0` (line 159), `stationary`
is `|ax| < 0.1 ∧ |ay| < 0.1 ∧ |az - 1.0| < 0.1` (line 166), `x_over` is
`|ax| > MOVE_THRESHOLD` (line 178), `y_over` is `|ay| > MOVE_THRESHOLD`
(line 186), `btn_now` is `gpio_get(BUTTON1) == 0` (line 199), and `now` is
`now_ms()` (line 156). -/
structure TickInput where
  read_ok : Bool
  stationary : Bool
  x_over : Bool
  y_over : Bool
  btn_now : Bool
  now : Nat
deriving DecidableEq, Repr

/-- `MOVEMENT_DELAY_MS` (main.c line 119). -/
def MOVEMENT_DELAY_MS : Nat := 300

/-- `(now - last_movement_time) > MOVEMENT_DELAY_MS` (main.c line 169) with
`uint32_t` wrap-around subtraction; both operands are below `2 ^ 32`.
The flag is computed by the task but never read afterwards. -/
def cooldownExpired (now last : Nat) : Bool :=
  decide ((now + 2 ^ 32 - last) % 2 ^ 32 > MOVEMENT_DELAY_MS)

/-- The IMU half of one loop iteration (main.c lines 159-196): when the
sensor read succeeded, either clear both latches (stationary) or emit at
most one symbol, latching the axis and forcing the press counter to 1. -/
def motionStep (s : InputState) (i : TickInput) : InputState × List MorseEvent :=
  if i.read_ok then
    let _cooldown := cooldownExpired i.now s.last_movement_time
    if i.stationary then
      ({ s with x_tilted := false, y_tilted := false }, [])
    else if i.x_over && !s.x_tilted then
      ({ s with x_tilted := true, button_press_count := 1 }, [MorseEvent.dot])
    else if i.y_over && !s.y_tilted then
      ({ s with y_tilted := true, button_press_count := 1 }, [MorseEvent.dash])
    else (s, [])
  else (s, [])

/-- The button half of one loop iteration (main.c lines 199-228): a rising
edge increments the press counter; a falling edge interprets it (1 letter
gap, 2 word gap, 3 end-of-message and reset); finally `btn_prev = btn_now`. -/
def buttonStep (s : InputState) (btn_now : Bool) : InputState × List MorseEvent :=
  let s1 := if btn_now && !s.btn_prev then
      { s with button_press_count := s.button_press_count + 1 }
    else s
  let p :=
    if !btn_now && s1.btn_prev then
      if s1.button_press_count = 1 then (s1, [MorseEvent.gapLetter])
      else if s1.button_press_count = 2 then (s1, [MorseEvent.gapWord])
      else if s1.button_press_count = 3 then
        ({ s1 with button_press_count := 0 }, [MorseEvent.endMsg])
      else (s1, [])
    else (s1, [])
  ({ p.1 with btn_prev := btn_now }, p.2)

/-- One full iteration of `input_task`'s sampling loop (main.c lines
155-232): the IMU part followed by the button part; the events are pushed
to the queue in this order. -/
def tick (s : InputState) (i : TickInput) : InputState × List MorseEvent :=
  let m := motionStep s i
  let p := buttonStep m.1 i.btn_now
  (p.1, m.2 ++ p.2)

/-- A run of consecutive loop iterations, collecting the emitted events. -/
def runTicks (s : InputState) : List TickInput → InputState × List MorseEvent
  | [] => (s, [])
  | i :: is =>
      let t := tick s i
      let rest := runTicks t.1 is
      (rest.1, t.2 ++ rest.2)

example : (encRun [] [MorseEvent.dot, MorseEvent.dash, MorseEvent.gapWord,
    MorseEvent.endMsg]).2 = [['.', '-', ' ', ' ', ' ', '\n']] := by decide

example : (encRun [] [MorseEvent.endMsg]).2 = [[' ', '\n']] := by decide

example : (encRun [] [MorseEvent.dot, MorseEvent.gapLetter, MorseEvent.dot,
    MorseEvent.dot, MorseEvent.endMsg]).2 = [['.', ' ', '.', '.', ' ', ' ', '\n']] := by
  decide

lemma padSpace_length_le (b : List Char) (h : b.length ≤ 255) :
    (padSpace b).length ≤ 255 := by
  unfold padSpace
  split
  · next hc =>
      have := hc.2.2
      simp only [TX_BUF_LEN] at this
      simp only [List.length_append, List.length_singleton]
      omega
  · exact h

lemma padSpace2_length_le (b : List Char) (h : b.length ≤ 255) :
    (padSpace2 b).length ≤ 255 := by
  unfold padSpace2
  split
  · next hc =>
      simp only [TX_BUF_LEN] at hc
      simp only [List.length_append, List.length_singleton]
      omega
  · exact h

lemma padTerm_length_le (b : List Char) (h : b.length ≤ 255) :
    (padTerm b).length ≤ 255 := by
  unfold padTerm
  split
  · next hc =>
      simp only [TX_BUF_LEN] at hc
      simp
      omega
  · exact h

/-- Every single encoder step keeps the live region strictly inside the
256-byte array, and so does any message it flushes. -/
lemma encStep_inv (b : List Char) (e : MorseEvent) (h : b.length ≤ 255) :
    (encStep b e).1.length ≤ 255 ∧
      ∀ f, (encStep b e).2 = some f → f.length ≤ 255 := by
  cases e
  case dot =>
    refine ⟨?_, by intro f hf; simp [encStep] at hf⟩
    simp only [encStep]
    split
    · next hc => simp only [TX_BUF_LEN] at hc; simp; omega
    · exact h
  case dash =>
    refine ⟨?_, by intro f hf; simp [encStep] at hf⟩
    simp only [encStep]
    split
    · next hc => simp only [TX_BUF_LEN] at hc; simp; omega
    · exact h
  case gapLetter =>
    exact ⟨padSpace_length_le b h, by intro f hf; simp [encStep] at hf⟩
  case gapWord =>
    exact ⟨padSpace2_length_le _ (padSpace_length_le b h),
      by intro f hf; simp [encStep] at hf⟩
  case endMsg =>
    refine ⟨by simp [encStep], ?_⟩
    intro f hf
    simp only [encStep, Option.some.injEq] at hf
    exact hf ▸ padTerm_length_le _ (padSpace_length_le b h)

lemma encRun_inv : ∀ (evs : List MorseEvent) (b : List Char), b.length ≤ 255 →
    (encRun b evs).1.length ≤ 255 ∧ ∀ f ∈ (encRun b evs).2, f.length ≤ 255 := by
  intro evs
  induction evs with
  | nil => intro b h; simpa [encRun] using h
  | cons e es ih =>
      intro b h
      obtain ⟨h1, h2⟩ := encStep_inv b e h
      obtain ⟨h3, h4⟩ := ih (encStep b e).1 h1
      refine ⟨by simpa [encRun] using h3, ?_⟩
      intro f hf
      simp only [encRun, List.mem_append, Option.mem_toList, Option.mem_def] at hf
      rcases hf with hf | hf
      · exact h2 f hf
      · exact h4 f hf

/-- C9: processing any event sequence from the initial empty buffer keeps the
buffer length strictly below `TX_BUF_LEN` (256), and every flushed message is
also strictly shorter than the array, so no guarded `out[len++]` write of
`encoder_task` - including the two-byte `EV_END_MSG` append - ever touches an
index at or beyond the buffer capacity. -/
theorem c9_buffer_bound (evs : List MorseEvent) :
    (encRun [] evs).1.length < TX_BUF_LEN ∧
      ∀ f ∈ (encRun [] evs).2, f.length < TX_BUF_LEN := by
  obtain ⟨h1, h2⟩ := encRun_inv evs [] (by simp)
  constructor
  · simp only [TX_BUF_LEN]; omega
  · intro f hf
    have := h2 f hf
    simp only [TX_BUF_LEN]
    omega

/-- Witness for C9 at a concrete run: the `[Dot, EndMessage]` run flushes the
message `".  \n"` and both bounds hold there. -/
theorem c9_buffer_bound_witness :
    (encRun [] [MorseEvent.dot, MorseEvent.endMsg]).1.length < TX_BUF_LEN ∧
      (['.', ' ', ' ', '\n'] : List Char).length < TX_BUF_LEN :=
  ⟨(c9_buffer_bound [MorseEvent.dot, MorseEvent.endMsg]).1,
    (c9_buffer_bound [MorseEvent.dot, MorseEvent.endMsg]).2 _ (by decide)⟩

/-- C7: when the buffer is at the drop threshold (length 255, the largest
value the guards allow), every append is silently dropped: no event other
than `EV_END_MSG` changes the buffer at all, `EV_END_MSG` still flushes the
intact contents and resets the buffer, and the loop keeps folding over the
remaining events exactly as before. -/
theorem c7_overflow_drop (b : List Char) (e : MorseEvent) (h : 255 ≤ b.length) :
    ((encStep b e).1 = if e = MorseEvent.endMsg then [] else b)
    ∧ ((encStep b e).2 = if e = MorseEvent.endMsg then some b else none)
    ∧ ∀ es, (encRun b (e :: es)).1 = (encRun (encStep b e).1 es).1
        ∧ (encRun b (e :: es)).2 =
            (encStep b e).2.toList ++ (encRun (encStep b e).1 es).2 := by
  have hroom : ¬ b.length + 1 < TX_BUF_LEN := by simp only [TX_BUF_LEN]; omega
  have hp : padSpace b = b := by
    unfold padSpace
    rw [if_neg]
    rintro ⟨-, -, hc⟩
    exact hroom hc
  have hp2 : padSpace2 b = b := by unfold padSpace2; rw [if_neg hroom]
  have ht : padTerm b = b := by
    unfold padTerm
    rw [if_neg]
    simp only [TX_BUF_LEN]
    omega
  have hdot : encStep b MorseEvent.dot = (b, none) := by
    simp only [encStep]; rw [if_neg hroom]
  have hdash : encStep b MorseEvent.dash = (b, none) := by
    simp only [encStep]; rw [if_neg hroom]
  have hgl : encStep b MorseEvent.gapLetter = (b, none) := by
    simp only [encStep, hp]
  have hgw : encStep b MorseEvent.gapWord = (b, none) := by
    simp only [encStep, hp, hp2]
  have hem : encStep b MorseEvent.endMsg = ([], some b) := by
    simp only [encStep, hp, ht]
  refine ⟨?_, ?_, fun es => ⟨rfl, rfl⟩⟩ <;>
    cases e <;> simp [hdot, hdash, hgl, hgw, hem]

/-- Witness for C7: a buffer of 255 dots is at the threshold and a further
`Dot` leaves it unchanged. -/
theorem c7_overflow_drop_witness :
    (encStep (List.replicate 255 '.') MorseEvent.dot).1 = List.replicate 255 '.' := by
  have h := c7_overflow_drop (List.replicate 255 '.') MorseEvent.dot
    (by simp only [List.length_replicate, le_refl])
  rw [h.1, if_neg (show ¬ MorseEvent.dot = MorseEvent.endMsg by decide)]

/-- C1 (counterexample): on the event sequence `[Dot, Dash, GapWord,
EndMessage]` of spec Scenario 1, the encoder does not flush `".-  \n"`. -/
theorem c1_scenario1_counterexample :
    (encRun [] [MorseEvent.dot, MorseEvent.dash, MorseEvent.gapWord,
      MorseEvent.endMsg]).2 ≠ [['.', '-', ' ', ' ', '\n']] := by decide

/-- C1 (amended): starting from the empty buffer, the event sequence
`[Dot, Dash, GapWord, EndMessage]` makes the encoder flush exactly
`".-   \n"` - dot, dash, three spaces, newline: `EV_GAP_WORD` leaves the
buffer ending in two spaces and `EV_END_MSG` appends a further space and the
newline because it only inspects the final character. -/
theorem c1_scenario1_flush :
    (encRun [] [MorseEvent.dot, MorseEvent.dash, MorseEvent.gapWord,
      MorseEvent.endMsg]).2 = [['.', '-', ' ', ' ', ' ', '\n']] := by decide

/-- Length of the current run of spaces after scanning `l`, starting from a
run of `r` pending spaces. -/
def runAfter : Nat → List Char → Nat
  | r, [] => r
  | r, c :: l => runAfter (if c = ' ' then r + 1 else 0) l

/-- Scanning `l` starting with `r` pending spaces, no run of spaces ever
exceeds two. -/
def okFrom : Nat → List Char → Bool
  | _, [] => true
  | r, c :: l => if c = ' ' then decide (r + 1 ≤ 2) && okFrom (r + 1) l else okFrom 0 l

lemma runAfter_append (l₁ l₂ : List Char) :
    ∀ r, runAfter r (l₁ ++ l₂) = runAfter (runAfter r l₁) l₂ := by
  induction l₁ with
  | nil => intro r; rfl
  | cons c l ih =>
      intro r
      simp only [List.cons_append, runAfter, List.append_eq, ih]

lemma okFrom_append (l₁ l₂ : List Char) :
    ∀ r, okFrom r (l₁ ++ l₂) = (okFrom r l₁ && okFrom (runAfter r l₁) l₂) := by
  induction l₁ with
  | nil => intro r; simp [okFrom, runAfter]
  | cons c l ih =>
      intro r
      by_cases hc : c = ' '
      · subst hc
        simp only [List.cons_append, okFrom, runAfter, if_pos rfl, List.append_eq,
          ih, Bool.and_assoc, eq_self_iff_true, ite_true]
      · simp only [List.cons_append, okFrom, runAfter, if_neg hc, List.append_eq,
          ih]

lemma okFrom_single (r : Nat) (c : Char) :
    okFrom r [c] = if c = ' ' then decide (r + 1 ≤ 2) else true := by
  by_cases hc : c = ' ' <;> simp [okFrom, hc]

lemma runAfter_single (r : Nat) (c : Char) :
    runAfter r [c] = if c = ' ' then r + 1 else 0 := by
  by_cases hc : c = ' ' <;> simp [runAfter, hc]

lemma okFrom_snoc (l : List Char) (c : Char) (r : Nat) :
    okFrom r (l ++ [c]) =
      (okFrom r l && (if c = ' ' then decide (runAfter r l + 1 ≤ 2) else true)) := by
  rw [okFrom_append, okFrom_single]

lemma runAfter_snoc (l : List Char) (c : Char) (r : Nat) :
    runAfter r (l ++ [c]) = if c = ' ' then runAfter r l + 1 else 0 := by
  rw [runAfter_append, runAfter_single]

/-- A non-empty list is its initial segment plus its last element. -/
lemma getLast?_decomp : ∀ (l : List Char), l ≠ [] →
    ∃ l' a, l = l' ++ [a] ∧ l.getLast? = some a := by
  intro l
  induction l with
  | nil => intro h; exact absurd rfl h
  | cons c l ih =>
      intro _
      cases l with
      | nil => exact ⟨[], c, rfl, rfl⟩
      | cons d t =>
          obtain ⟨l', a, h1, h2⟩ := ih (by simp)
          exact ⟨c :: l', a, by rw [List.cons_append, ← h1],
            by rw [List.getLast?_cons_cons, h2]⟩

/-- If a non-empty list does not end in a space, scanning it leaves no
pending space run, whatever run it started with. -/
lemma runAfter_eq_zero (l : List Char) (h1 : l ≠ []) (h2 : l.getLast? ≠ some ' ')
    (r : Nat) : runAfter r l = 0 := by
  obtain ⟨l', a, hl, hg⟩ := getLast?_decomp l h1
  subst hl
  rw [runAfter_snoc, if_neg]
  intro ha
  exact h2 (hg.trans (by rw [ha]))

/-- The events whose encoder action can append a space after an existing
space: `EV_GAP_WORD` and `EV_END_MSG`. -/
def gapish : MorseEvent → Bool
  | MorseEvent.gapWord => true
  | MorseEvent.endMsg => true
  | _ => false

/-- Whether the previously processed event was a symbol (`EV_DOT`/`EV_DASH`). -/
def prevSymB : Option MorseEvent → Bool
  | some MorseEvent.dot => true
  | some MorseEvent.dash => true
  | _ => false

/-- Every `EV_GAP_WORD` or `EV_END_MSG` in the remaining events is
immediately preceded by a symbol event; `prev` is the event before the
list (`none` at the start of the run). -/
def seqFrom : Option MorseEvent → List MorseEvent → Bool
  | _, [] => true
  | prev, e :: es => ((!gapish e) || prevSymB prev) && seqFrom (some e) es

/-- Well-spaced event sequences: each word gap and each end-of-message is
immediately preceded by a `Dot` or `Dash`. -/
abbrev seqOK (evs : List MorseEvent) : Prop := seqFrom none evs = true

lemma encTotal_nil (b : List Char) : encTotal b [] = b := by
  simp [encTotal, encRun]

lemma encTotal_cons_of_none (b : List Char) (e : MorseEvent)
    (es : List MorseEvent) (h : (encStep b e).2 = none) :
    encTotal b (e :: es) = encTotal (encStep b e).1 es := by
  simp [encTotal, encRun, h]

lemma encTotal_cons_endMsg (b : List Char) (es : List MorseEvent) :
    encTotal b (MorseEvent.endMsg :: es) =
      padTerm (padSpace b) ++ encTotal [] es := by
  simp [encTotal, encRun, encStep]

lemma getLast?_snoc (l : List Char) (a : Char) : (l ++ [a]).getLast? = some a := by
  rw [List.getLast?_concat]

lemma okFrom_snoc_nonspace (l : List Char) (c : Char) (r : Nat) (hc : ¬ c = ' ')
    (h : okFrom r l = true) : okFrom r (l ++ [c]) = true := by
  rw [okFrom_snoc, if_neg hc, h]
  rfl

lemma okFrom_snoc_space (l : List Char) (r : Nat) (h : okFrom r l = true)
    (hr : runAfter r l + 1 ≤ 2) : okFrom r (l ++ [' ']) = true := by
  rw [okFrom_snoc, if_pos rfl, h, decide_eq_true hr]
  rfl

/-- Core space-run invariant of the encoder.  Under the well-spacing
hypothesis on the remaining events, scanning everything the encoder will
ever produce (flushed messages followed by the live buffer) from any
starting run `r` compatible with the buffer keeps every run of spaces at
two or below.  The conjunct about `prev` records what the previous event
guarantees about the buffer: after a symbol event the buffer either ends in
a non-space or is at the 255 drop threshold. -/
lemma encTotal_okFrom :
    ∀ (evs : List MorseEvent) (r : Nat) (b : List Char) (prev : Option MorseEvent),
      okFrom r b = true → b.length ≤ 255 → seqFrom prev evs = true →
      (prevSymB prev = true → (b ≠ [] ∧ b.getLast? ≠ some ' ') ∨ b.length = 255) →
      okFrom r (encTotal b evs) = true := by
  intro evs
  induction evs with
  | nil =>
      intro r b prev hb _ _ _
      rw [encTotal_nil]
      exact hb
  | cons e es ih =>
      intro r b prev hb hlen hseq hprev
      simp only [seqFrom, Bool.and_eq_true] at hseq
      have hseq2 : seqFrom (some e) es = true := hseq.2
      have hgap : gapish e = true → prevSymB prev = true := by
        intro hg
        have h1 := hseq.1
        rw [hg] at h1
        simpa using h1
      cases e with
      | dot =>
          rw [encTotal_cons_of_none b MorseEvent.dot es rfl]
          by_cases hroom : b.length + 1 < TX_BUF_LEN
          · have hstep : (encStep b MorseEvent.dot).1 = b ++ ['.'] := by
              simp only [encStep, if_pos hroom]
            rw [hstep]
            apply ih _ _ (some MorseEvent.dot)
            · exact okFrom_snoc_nonspace _ _ _ (by decide) hb
            · simp only [TX_BUF_LEN] at hroom
              simp only [List.length_append, List.length_cons, List.length_nil]
              omega
            · exact hseq2
            · intro _
              left
              exact ⟨by simp, by rw [getLast?_snoc]; decide⟩
          · have hstep : (encStep b MorseEvent.dot).1 = b := by
              simp only [encStep, if_neg hroom]
            rw [hstep]
            apply ih _ _ (some MorseEvent.dot) hb hlen hseq2
            intro _
            right
            simp only [TX_BUF_LEN] at hroom
            omega
      | dash =>
          rw [encTotal_cons_of_none b MorseEvent.dash es rfl]
          by_cases hroom : b.length + 1 < TX_BUF_LEN
          · have hstep : (encStep b MorseEvent.dash).1 = b ++ ['-'] := by
              simp only [encStep, if_pos hroom]
            rw [hstep]
            apply ih _ _ (some MorseEvent.dash)
            · exact okFrom_snoc_nonspace _ _ _ (by decide) hb
            · simp only [TX_BUF_LEN] at hroom
              simp only [List.length_append, List.length_cons, List.length_nil]
              omega
            · exact hseq2
            · intro _
              left
              exact ⟨by simp, by rw [getLast?_snoc]; decide⟩
          · have hstep : (encStep b MorseEvent.dash).1 = b := by
              simp only [encStep, if_neg hroom]
            rw [hstep]
            apply ih _ _ (some MorseEvent.dash) hb hlen hseq2
            intro _
            right
            simp only [TX_BUF_LEN] at hroom
            omega
      | gapLetter =>
          rw [encTotal_cons_of_none b MorseEvent.gapLetter es rfl]
          have hvac : prevSymB (some MorseEvent.gapLetter) = true →
              ((padSpace b ≠ [] ∧ (padSpace b).getLast? ≠ some ' ')
                ∨ (padSpace b).length = 255) := by
            intro h
            exact absurd h (by decide)
          by_cases hc : b ≠ [] ∧ b.getLast? ≠ some ' ' ∧ b.length + 1 < TX_BUF_LEN
          · have hstep : (encStep b MorseEvent.gapLetter).1 = b ++ [' '] := by
              simp only [encStep, padSpace, if_pos hc]
            have hps : padSpace b = b ++ [' '] := by
              simp only [padSpace, if_pos hc]
            rw [hstep]
            apply ih _ _ (some MorseEvent.gapLetter)
            · refine okFrom_snoc_space _ _ hb ?_
              rw [runAfter_eq_zero b hc.1 hc.2.1 r]
              omega
            · have := hc.2.2
              simp only [TX_BUF_LEN] at this
              simp only [List.length_append, List.length_cons, List.length_nil]
              omega
            · exact hseq2
            · rw [← hps]
              exact hvac
          · have hstep : (encStep b MorseEvent.gapLetter).1 = b := by
              simp only [encStep, padSpace, if_neg hc]
            have hps : padSpace b = b := by
              simp only [padSpace, if_neg hc]
            rw [hstep]
            apply ih _ _ (some MorseEvent.gapLetter) hb hlen hseq2
            rw [← hps]
            exact hvac
      | gapWord =>
          rw [encTotal_cons_of_none b MorseEvent.gapWord es rfl]
          have hsafe := hprev (hgap rfl)
          have hvac : prevSymB (some MorseEvent.gapWord) = true →
              (((encStep b MorseEvent.gapWord).1 ≠ []
                  ∧ ((encStep b MorseEvent.gapWord).1).getLast? ≠ some ' ')
                ∨ ((encStep b MorseEvent.gapWord).1).length = 255) := by
            intro h
            exact absurd h (by decide)
          by_cases h255 : b.length = 255
          · have hps : padSpace b = b := by
              simp only [padSpace]
              rw [if_neg]
              rintro ⟨-, -, hr⟩
              simp only [TX_BUF_LEN] at hr
              omega
            have hstep : (encStep b MorseEvent.gapWord).1 = b := by
              simp only [encStep, hps, padSpace2]
              rw [if_neg]
              simp only [TX_BUF_LEN]
              omega
            rw [hstep]
            apply ih _ _ (some MorseEvent.gapWord) hb hlen hseq2
            rw [← hstep]
            exact hvac
          · rcases hsafe with ⟨hne, hlast⟩ | h255'
            · have hra : runAfter r b = 0 := runAfter_eq_zero b hne hlast r
              have hroom : b.length + 1 < TX_BUF_LEN := by
                simp only [TX_BUF_LEN]
                omega
              have hps : padSpace b = b ++ [' '] := by
                simp only [padSpace, if_pos (And.intro hne (And.intro hlast hroom))]
              have hok1 : okFrom r (b ++ [' ']) = true := by
                refine okFrom_snoc_space _ _ hb ?_
                rw [hra]
                omega
              by_cases hroom2 : (b ++ [' ']).length + 1 < TX_BUF_LEN
              · have hstep : (encStep b MorseEvent.gapWord).1 = (b ++ [' ']) ++ [' '] := by
                  simp only [encStep, hps, padSpace2, if_pos hroom2]
                rw [hstep]
                apply ih _ _ (some MorseEvent.gapWord)
                · refine okFrom_snoc_space _ _ hok1 ?_
                  rw [runAfter_snoc, if_pos rfl, hra]
                · simp only [TX_BUF_LEN, List.length_append, List.length_cons,
                    List.length_nil] at hroom2 ⊢
                  omega
                · exact hseq2
                · rw [← hstep]
                  exact hvac
              · have hstep : (encStep b MorseEvent.gapWord).1 = b ++ [' '] := by
                  simp only [encStep, hps, padSpace2, if_neg hroom2]
                rw [hstep]
                apply ih _ _ (some MorseEvent.gapWord) hok1
                · simp only [TX_BUF_LEN] at hroom
                  simp only [List.length_append, List.length_cons, List.length_nil]
                  omega
                · exact hseq2
                · rw [← hstep]
                  exact hvac
            · exact absurd h255' h255
      | endMsg =>
          rw [encTotal_cons_endMsg, okFrom_append, Bool.and_eq_true]
          have hsafe := hprev (hgap rfl)
          refine ⟨?_, ?_⟩
          case refine_2 =>
            exact ih _ [] (some MorseEvent.endMsg) rfl (by simp) hseq2
              (fun h => absurd h (by decide))
          case refine_1 =>
            by_cases h255 : b.length = 255
            · have hps : padSpace b = b := by
                simp only [padSpace]
                rw [if_neg]
                rintro ⟨-, -, hr⟩
                simp only [TX_BUF_LEN] at hr
                omega
              have ht : padTerm (padSpace b) = b := by
                rw [hps]
                simp only [padTerm]
                rw [if_neg]
                simp only [TX_BUF_LEN]
                omega
              rw [ht]
              exact hb
            · rcases hsafe with ⟨hne, hlast⟩ | h255'
              · have hra : runAfter r b = 0 := runAfter_eq_zero b hne hlast r
                have hroom : b.length + 1 < TX_BUF_LEN := by
                  simp only [TX_BUF_LEN]
                  omega
                have hps : padSpace b = b ++ [' '] := by
                  simp only [padSpace, if_pos (And.intro hne (And.intro hlast hroom))]
                have hok1 : okFrom r (b ++ [' ']) = true := by
                  refine okFrom_snoc_space _ _ hb ?_
                  rw [hra]
                  omega
                have hra1 : runAfter r (b ++ [' ']) = 1 := by
                  rw [runAfter_snoc, if_pos rfl, hra]
                by_cases hroomT : (b ++ [' ']).length + 2 < TX_BUF_LEN
                · have ht : padTerm (padSpace b) = (b ++ [' ']) ++ [' ', '\n'] := by
                    rw [hps]
                    simp only [padTerm, if_pos hroomT]
                  rw [ht, okFrom_append, Bool.and_eq_true]
                  refine ⟨hok1, ?_⟩
                  rw [hra1]
                  decide
                · have ht : padTerm (padSpace b) = b ++ [' '] := by
                    rw [hps]
                    simp only [padTerm, if_neg hroomT]
                  rw [ht]
                  exact hok1
              · exact absurd h255' h255

/-- Scanning three consecutive spaces always overflows the two-space bound,
whatever pending run the scan starts with. -/
lemma okFrom_three_spaces (k : Nat) (t : List Char) :
    okFrom k ([' ', ' ', ' '] ++ t) = false := by
  have h3 : ¬ (k + 1 + 1 + 1 ≤ 2) := by omega
  simp [okFrom, h3]

/-- No list accepted by the run scanner contains three consecutive spaces. -/
lemma not_containsRun3_of_okFrom (l : List Char) (h : okFrom 0 l = true) :
    ¬ containsRun3 l := by
  rintro ⟨s, t, rfl⟩
  rw [okFrom_append, Bool.and_eq_true] at h
  have h2 := h.2
  rw [okFrom_three_spaces] at h2
  cases h2

/-- C2 (counterexample): the flushed stream of the event sequence
`[Dot, GapWord, EndMessage]` contains three consecutive spaces - the flush
is `".   \n"`. -/
theorem c2_counterexample :
    containsRun3 (encStream [MorseEvent.dot, MorseEvent.gapWord,
      MorseEvent.endMsg]) :=
  ⟨['.'], ['\n'], by decide⟩

/-- C2 (amended): for every event sequence in which each `GapWord` and each
`EndMessage` is immediately preceded by a `Dot` or a `Dash`, the byte stream
flushed to the output sink never contains three or more consecutive spaces. -/
theorem c2_no_triple_space (evs : List MorseEvent) (h : seqOK evs) :
    ¬ containsRun3 (encStream evs) := by
  have htotal : okFrom 0 (encTotal [] evs) = true :=
    encTotal_okFrom evs 0 [] none rfl (by simp) h
      (by intro hh; exact absurd hh (by decide))
  have hsplit : encTotal [] evs = encStream evs ++ (encRun [] evs).1 := rfl
  rw [hsplit, okFrom_append, Bool.and_eq_true] at htotal
  exact not_containsRun3_of_okFrom _ htotal.1

/-- Witness for C2 (amended) at a concrete well-spaced sequence. -/
theorem c2_no_triple_space_witness :
    seqOK [MorseEvent.dot, MorseEvent.gapWord, MorseEvent.dash,
        MorseEvent.endMsg]
    ∧ ¬ containsRun3 (encStream [MorseEvent.dot, MorseEvent.gapWord,
        MorseEvent.dash, MorseEvent.endMsg]) :=
  ⟨by decide, c2_no_triple_space _ (by decide)⟩

lemma encRun_append (l₁ l₂ : List MorseEvent) : ∀ b,
    encRun b (l₁ ++ l₂) =
      ((encRun (encRun b l₁).1 l₂).1,
        (encRun b l₁).2 ++ (encRun (encRun b l₁).1 l₂).2) := by
  induction l₁ with
  | nil => intro b; simp [encRun]
  | cons e es ih =>
      intro b
      simp only [List.cons_append, encRun, List.append_eq, ih, List.append_assoc]

/-- C3 (counterexample): on the event sequence `[EndMessage]` the buffer is
still empty when `EV_END_MSG` arrives, the space-normalization step is
skipped (its guard requires `len` non-zero), and the flushed buffer is the
two bytes `" \n"`, which does not end with `"  \n"`. -/
theorem c3_counterexample :
    (encRun [] [MorseEvent.endMsg]).2 = [[' ', '\n']]
    ∧ ¬ endsWith [' ', ' ', '\n'] [' ', '\n'] := by
  refine ⟨by decide, ?_⟩
  rintro ⟨s, hs⟩
  have hlen := congrArg List.length hs
  simp only [List.length_append, List.length_cons, List.length_nil] at hlen
  omega

/-- C3 (amended): if the buffer reached by the preceding events is non-empty
and holds at most 252 bytes, then the message flushed by a final
`EndMessage` (the last flush of the extended run) ends with exactly the
three bytes `"  \n"`, and the buffer is reset to length 0 afterwards. -/
theorem c3_terminator (evs : List MorseEvent)
    (h1 : (encRun [] evs).1 ≠ [])
    (h2 : (encRun [] evs).1.length ≤ 252) :
    ((encRun [] (evs ++ [MorseEvent.endMsg])).2).getLast? =
        some (padTerm (padSpace (encRun [] evs).1))
    ∧ endsWith [' ', ' ', '\n'] (padTerm (padSpace (encRun [] evs).1))
    ∧ (encRun [] (evs ++ [MorseEvent.endMsg])).1 = [] := by
  have hsplit := encRun_append evs [MorseEvent.endMsg] []
  have hlast : (encRun (encRun [] evs).1 [MorseEvent.endMsg]).2
      = [padTerm (padSpace (encRun [] evs).1)] := rfl
  have hbuf : (encRun (encRun [] evs).1 [MorseEvent.endMsg]).1 = [] := rfl
  refine ⟨?_, ?_, ?_⟩
  · rw [hsplit]
    simp only [hlast]
    rw [List.getLast?_concat]
  · obtain ⟨l', a, hl, hg⟩ := getLast?_decomp _ h1
    by_cases ha : a = ' '
    · have hps : padSpace (encRun [] evs).1 = (encRun [] evs).1 := by
        simp only [padSpace]
        rw [if_neg]
        rintro ⟨-, hlastc, -⟩
        rw [hg, ha] at hlastc
        exact hlastc rfl
      have hpt : padTerm (encRun [] evs).1 = (encRun [] evs).1 ++ [' ', '\n'] := by
        simp only [padTerm]
        rw [if_pos]
        simp only [TX_BUF_LEN]
        omega
      rw [hps, hpt, hl, ha]
      exact ⟨l', by simp⟩
    · have hps : padSpace (encRun [] evs).1 = (encRun [] evs).1 ++ [' '] := by
        simp only [padSpace]
        rw [if_pos]
        refine ⟨h1, ?_, ?_⟩
        · rw [hg]
          intro hcon
          exact ha (by injection hcon)
        · simp only [TX_BUF_LEN]
          omega
      have hpt : padTerm ((encRun [] evs).1 ++ [' ']) =
          ((encRun [] evs).1 ++ [' ']) ++ [' ', '\n'] := by
        simp only [padTerm]
        rw [if_pos]
        simp only [TX_BUF_LEN, List.length_append, List.length_cons, List.length_nil]
        omega
      rw [hps, hpt]
      exact ⟨(encRun [] evs).1, by simp⟩
  · rw [hsplit]
    simp only [hbuf]

/-- Witness for C3 (amended) at the one-dot message. -/
theorem c3_terminator_witness :
    ((encRun [] ([MorseEvent.dot] ++ [MorseEvent.endMsg])).2).getLast? =
        some (padTerm (padSpace (encRun [] [MorseEvent.dot]).1))
    ∧ endsWith [' ', ' ', '\n'] (padTerm (padSpace (encRun [] [MorseEvent.dot]).1))
    ∧ (encRun [] ([MorseEvent.dot] ++ [MorseEvent.endMsg])).1 = [] :=
  c3_terminator [MorseEvent.dot] (by decide) (by decide)

/-- C4 (counterexample): from the initial empty buffer a single `GapLetter`
event appends nothing (its guard requires a non-empty buffer), so the
resulting buffer does not end with a space at all. -/
theorem c4_counterexample :
    ¬ endsWith [' '] (encRun [] [MorseEvent.gapLetter]).1 := by
  rintro ⟨s, hs⟩
  have hb : (encRun ([] : List Char) [MorseEvent.gapLetter]).1 = [] := by decide
  rw [hb] at hs
  have hlen := congrArg List.length hs
  simp only [List.length_append, List.length_cons, List.length_nil] at hlen
  omega

/-- A second `EV_GAP_LETTER` never changes the buffer a first one produced. -/
lemma gapLetter_idem (b : List Char) :
    (encStep (encStep b MorseEvent.gapLetter).1 MorseEvent.gapLetter).1
      = (encStep b MorseEvent.gapLetter).1 := by
  by_cases hc : b ≠ [] ∧ b.getLast? ≠ some ' ' ∧ b.length + 1 < TX_BUF_LEN
  · have h1 : (encStep b MorseEvent.gapLetter).1 = b ++ [' '] := by
      simp only [encStep, padSpace, if_pos hc]
    rw [h1]
    simp only [encStep, padSpace]
    rw [if_neg]
    rintro ⟨-, hlast, -⟩
    exact hlast (getLast?_snoc b ' ')
  · have h1 : (encStep b MorseEvent.gapLetter).1 = b := by
      simp only [encStep, padSpace, if_neg hc]
    rw [h1, h1]

lemma encRun_replicate_gapLetter : ∀ (n : Nat) (b : List Char), 1 ≤ n →
    (encRun b (List.replicate n MorseEvent.gapLetter)).1
      = (encStep b MorseEvent.gapLetter).1 := by
  intro n
  induction n with
  | zero => intro b h; omega
  | succ n ih =>
      intro b _
      by_cases hn : 1 ≤ n
      · have hrep : List.replicate (n + 1) MorseEvent.gapLetter
            = MorseEvent.gapLetter :: List.replicate n MorseEvent.gapLetter := rfl
        rw [hrep]
        show (encRun (encStep b MorseEvent.gapLetter).1
          (List.replicate n MorseEvent.gapLetter)).1 = _
        rw [ih _ hn, gapLetter_idem]
      · have hn0 : n = 0 := by omega
        subst hn0
        rfl

/-- C4 (amended): processing one or more `GapLetter` events with no
intervening events is the same as processing a single one (idempotence),
and when the buffer is non-empty, does not already end in a space, and has
room, that single event appends exactly one space, so the buffer then ends
in exactly one space. -/
theorem c4_gap_letter_idem (b : List Char) (n : Nat) (h : 1 ≤ n) :
    (encRun b (List.replicate n MorseEvent.gapLetter)).1
        = (encStep b MorseEvent.gapLetter).1
    ∧ (b ≠ [] → b.getLast? ≠ some ' ' → b.length + 1 < TX_BUF_LEN →
        (encRun b (List.replicate n MorseEvent.gapLetter)).1 = b ++ [' ']) := by
  refine ⟨encRun_replicate_gapLetter n b h, ?_⟩
  intro h1 h2 h3
  rw [encRun_replicate_gapLetter n b h]
  simp only [encStep, padSpace, if_pos (And.intro h1 (And.intro h2 h3))]

/-- Witness for C4 (amended): three `GapLetter` events after a dot leave the
buffer `". "`. -/
theorem c4_gap_letter_idem_witness :
    (encRun ['.'] (List.replicate 3 MorseEvent.gapLetter)).1 = ['.'] ++ [' '] :=
  (c4_gap_letter_idem ['.'] 3 (by omega)).2 (by decide) (by decide) (by decide)

lemma mem_padSpace (b : List Char) (c : Char) (h : c ∈ padSpace b) :
    c ∈ b ∨ c = ' ' := by
  unfold padSpace at h
  split at h
  · rcases List.mem_append.mp h with h | h
    · exact Or.inl h
    · simp at h
      exact Or.inr h
  · exact Or.inl h

lemma mem_padSpace2 (b : List Char) (c : Char) (h : c ∈ padSpace2 b) :
    c ∈ b ∨ c = ' ' := by
  unfold padSpace2 at h
  split at h
  · rcases List.mem_append.mp h with h | h
    · exact Or.inl h
    · simp at h
      exact Or.inr h
  · exact Or.inl h

lemma mem_padTerm (b : List Char) (c : Char) (h : c ∈ padTerm b) :
    c ∈ b ∨ c = ' ' ∨ c = '\n' := by
  unfold padTerm at h
  split at h
  · rcases List.mem_append.mp h with h | h
    · exact Or.inl h
    · simp at h
      exact Or.inr h
  · exact Or.inl h

/-- Any byte of anything the encoder ever produces either was already in the
starting buffer or is one of the four protocol bytes. -/
lemma mem_encTotal : ∀ (evs : List MorseEvent) (b : List Char) (c : Char),
    c ∈ encTotal b evs →
    c ∈ b ∨ c = '.' ∨ c = '-' ∨ c = ' ' ∨ c = '\n' := by
  intro evs
  induction evs with
  | nil =>
      intro b c hc
      rw [encTotal_nil] at hc
      exact Or.inl hc
  | cons e es ih =>
      intro b c hc
      cases e with
      | dot =>
          rw [encTotal_cons_of_none b MorseEvent.dot es rfl] at hc
          rcases ih _ c hc with h | h
          · simp only [encStep] at h
            split at h
            · rcases List.mem_append.mp h with h | h
              · exact Or.inl h
              · simp at h
                exact Or.inr (Or.inl h)
            · exact Or.inl h
          · exact Or.inr h
      | dash =>
          rw [encTotal_cons_of_none b MorseEvent.dash es rfl] at hc
          rcases ih _ c hc with h | h
          · simp only [encStep] at h
            split at h
            · rcases List.mem_append.mp h with h | h
              · exact Or.inl h
              · simp at h
                exact Or.inr (Or.inr (Or.inl h))
            · exact Or.inl h
          · exact Or.inr h
      | gapLetter =>
          rw [encTotal_cons_of_none b MorseEvent.gapLetter es rfl] at hc
          rcases ih _ c hc with h | h
          · rcases mem_padSpace b c h with h | h
            · exact Or.inl h
            · exact Or.inr (Or.inr (Or.inr (Or.inl h)))
          · exact Or.inr h
      | gapWord =>
          rw [encTotal_cons_of_none b MorseEvent.gapWord es rfl] at hc
          rcases ih _ c hc with h | h
          · rcases mem_padSpace2 _ c h with h | h
            · rcases mem_padSpace b c h with h | h
              · exact Or.inl h
              · exact Or.inr (Or.inr (Or.inr (Or.inl h)))
            · exact Or.inr (Or.inr (Or.inr (Or.inl h)))
          · exact Or.inr h
      | endMsg =>
          rw [encTotal_cons_endMsg] at hc
          rcases List.mem_append.mp hc with h | h
          · rcases mem_padTerm _ c h with h | h
            · rcases mem_padSpace b c h with h | h
              · exact Or.inl h
              · exact Or.inr (Or.inr (Or.inr (Or.inl h)))
            · rcases h with h | h
              · exact Or.inr (Or.inr (Or.inr (Or.inl h)))
              · exact Or.inr (Or.inr (Or.inr (Or.inr h)))
          · rcases ih [] c h with h | h
            · exact absurd h (List.not_mem_nil c)
            · exact Or.inr h

/-- C8: every byte of the stream flushed by the encoder to the output sink
is one of the protocol bytes dot, dash, space, or newline; no other byte
value ever appears in the stream. -/
theorem c8_wire_alphabet (evs : List MorseEvent) (c : Char)
    (h : c ∈ encStream evs) :
    c = '.' ∨ c = '-' ∨ c = ' ' ∨ c = '\n' := by
  have hmem : c ∈ encTotal [] evs := by
    have hsplit : encTotal [] evs = encStream evs ++ (encRun [] evs).1 := rfl
    rw [hsplit]
    exact List.mem_append.mpr (Or.inl h)
  rcases mem_encTotal evs [] c hmem with h0 | h0
  · exact absurd h0 (List.not_mem_nil c)
  · exact h0

/-- Witness for C8 at the concrete run `[Dot, EndMessage]`. -/
theorem c8_wire_alphabet_witness :
    ('.' ∈ encStream [MorseEvent.dot, MorseEvent.endMsg])
    ∧ ('.' = '.' ∨ '.' = '-' ∨ '.' = ' ' ∨ '.' = '\n') :=
  ⟨by decide, c8_wire_alphabet [MorseEvent.dot, MorseEvent.endMsg] '.' (by decide)⟩

/-- C5: on a button falling edge (`btn_prev` true, `btn_now` false) the
classifier emits `GapLetter` when the accumulated press counter is 1,
`GapWord` when it is 2, `EndMessage` (resetting the counter to 0) when it
is 3, and nothing otherwise; in every case the only other state change is
the edge-tracking `btn_prev := false`. -/
theorem c5_release_classification (s : InputState) (h : s.btn_prev = true) :
    (buttonStep s false).2 =
      (if s.button_press_count = 1 then [MorseEvent.gapLetter]
       else if s.button_press_count = 2 then [MorseEvent.gapWord]
       else if s.button_press_count = 3 then [MorseEvent.endMsg]
       else [])
    ∧ (buttonStep s false).1 =
      { s with btn_prev := false,
               button_press_count :=
                 if s.button_press_count = 3 then 0
                 else s.button_press_count } := by
  obtain ⟨xt, yt, bp, c, lt⟩ := s
  simp only at h
  subst h
  by_cases h1 : c = 1
  · subst h1
    simp [buttonStep]
  · by_cases h2 : c = 2
    · subst h2
      simp [buttonStep]
    · by_cases h3 : c = 3
      · subst h3
        simp [buttonStep]
      · simp [buttonStep, h1, h2, h3]

/-- Witness for C5: releasing after a double press emits a word gap. -/
theorem c5_release_classification_witness :
    (buttonStep ⟨false, false, true, 2, 0⟩ false).2 =
      (if (2 : Nat) = 1 then [MorseEvent.gapLetter]
       else if (2 : Nat) = 2 then [MorseEvent.gapWord]
       else if (2 : Nat) = 3 then [MorseEvent.endMsg]
       else [])
    ∧ (buttonStep ⟨false, false, true, 2, 0⟩ false).1 =
      { (⟨false, false, true, 2, 0⟩ : InputState) with
          btn_prev := false,
          button_press_count := if (2 : Nat) = 3 then 0 else 2 } :=
  c5_release_classification ⟨false, false, true, 2, 0⟩ rfl

lemma buttonStep_count_dot (s : InputState) (bn : Bool) :
    List.count MorseEvent.dot (buttonStep s bn).2 = 0 := by
  obtain ⟨xt, yt, bp, c, lt⟩ := s
  cases bn <;> cases bp <;> simp [buttonStep] <;> split_ifs <;> simp

lemma buttonStep_x_tilted (s : InputState) (bn : Bool) :
    (buttonStep s bn).1.x_tilted = s.x_tilted := by
  obtain ⟨xt, yt, bp, c, lt⟩ := s
  cases bn <;> cases bp <;> simp [buttonStep] <;> split_ifs <;> rfl

/-- First tick of a sustained X tilt from an unlatched state: exactly one
`Dot` is emitted and the latch is set. -/
lemma tick_first_dot (s : InputState) (i : TickInput)
    (hx : s.x_tilted = false) (hro : i.read_ok = true)
    (hst : i.stationary = false) (hxo : i.x_over = true) :
    List.count MorseEvent.dot (tick s i).2 = 1
    ∧ (tick s i).1.x_tilted = true := by
  have hm : motionStep s i =
      ({ s with x_tilted := true, button_press_count := 1 }, [MorseEvent.dot]) := by
    simp [motionStep, hro, hst, hxo, hx]
  constructor
  · show List.count MorseEvent.dot
        ((motionStep s i).2 ++ (buttonStep (motionStep s i).1 i.btn_now).2) = 1
    rw [List.count_append, hm, buttonStep_count_dot]
    simp
  · show (buttonStep (motionStep s i).1 i.btn_now).1.x_tilted = true
    rw [hm, buttonStep_x_tilted]

/-- A tick with the X latch set and the device not stationary emits no
further `Dot` and keeps the latch set. -/
lemma tick_latched (s : InputState) (i : TickInput)
    (hx : s.x_tilted = true) (hst : i.stationary = false) :
    List.count MorseEvent.dot (tick s i).2 = 0
    ∧ (tick s i).1.x_tilted = true := by
  have hm : (motionStep s i).1.x_tilted = true
      ∧ List.count MorseEvent.dot (motionStep s i).2 = 0 := by
    by_cases hro : i.read_ok = true
    · by_cases hy : (i.y_over && !s.y_tilted) = true
      · have hstep : motionStep s i =
            ({ s with y_tilted := true, button_press_count := 1 },
              [MorseEvent.dash]) := by
          simp [motionStep, hro, hst, hx, hy]
        rw [hstep]
        exact ⟨by simpa using hx, by simp⟩
      · have hstep : motionStep s i = (s, []) := by
          simp [motionStep, hro, hst, hx, hy]
        rw [hstep]
        exact ⟨hx, by simp⟩
    · have hro' : i.read_ok = false := by simpa using hro
      have hstep : motionStep s i = (s, []) := by simp [motionStep, hro']
      rw [hstep]
      exact ⟨hx, by simp⟩
  constructor
  · show List.count MorseEvent.dot
        ((motionStep s i).2 ++ (buttonStep (motionStep s i).1 i.btn_now).2) = 0
    rw [List.count_append, hm.2, buttonStep_count_dot]
  · show (buttonStep (motionStep s i).1 i.btn_now).1.x_tilted = true
    rw [buttonStep_x_tilted]
    exact hm.1

lemma runTicks_latched : ∀ (is : List TickInput) (s : InputState),
    s.x_tilted = true →
    (∀ i ∈ is, i.read_ok = true ∧ i.stationary = false ∧ i.x_over = true) →
    List.count MorseEvent.dot (runTicks s is).2 = 0
    ∧ (runTicks s is).1.x_tilted = true := by
  intro is
  induction is with
  | nil => intro s hx _; exact ⟨by simp [runTicks], hx⟩
  | cons i is ih =>
      intro s hx hall
      have hi := hall i (List.mem_cons_self i is)
      have ht := tick_latched s i hx hi.2.1
      have hrest := ih (tick s i).1 ht.2
        (fun j hj => hall j (List.mem_cons_of_mem i hj))
      constructor
      · show List.count MorseEvent.dot
            ((tick s i).2 ++ (runTicks (tick s i).1 is).2) = 0
        rw [List.count_append, ht.1, hrest.1]
      · exact hrest.2

/-- C6: over any non-empty run of ticks that are all readable,
non-stationary and above the X threshold, a classifier starting with the X
latch clear emits exactly one `Dot` and ends with the latch set; moreover a
stationary tick emits no symbol at all and clears both latches. -/
theorem c6_x_latch (s : InputState) (is : List TickInput)
    (hx : s.x_tilted = false) (hne : is ≠ [])
    (hall : ∀ i ∈ is, i.read_ok = true ∧ i.stationary = false ∧ i.x_over = true) :
    (List.count MorseEvent.dot (runTicks s is).2 = 1
      ∧ (runTicks s is).1.x_tilted = true)
    ∧ ∀ (s' : InputState) (i : TickInput), i.read_ok = true →
        i.stationary = true →
        (motionStep s' i).2 = [] ∧ (motionStep s' i).1.x_tilted = false
          ∧ (motionStep s' i).1.y_tilted = false := by
  constructor
  · cases is with
    | nil => exact absurd rfl hne
    | cons i is' =>
        have hi := hall i (List.mem_cons_self i is')
        have h1 := tick_first_dot s i hx hi.1 hi.2.1 hi.2.2
        have hrest := runTicks_latched is' (tick s i).1 h1.2
          (fun j hj => hall j (List.mem_cons_of_mem i hj))
        constructor
        · show List.count MorseEvent.dot
              ((tick s i).2 ++ (runTicks (tick s i).1 is').2) = 1
          rw [List.count_append, h1.1, hrest.1]
        · exact hrest.2
  · intro s' i hro hst
    refine ⟨?_, ?_, ?_⟩ <;> simp [motionStep, hro, hst]

/-- Witness for C6: two sustained-tilt ticks from the initial state emit one
dot and leave the latch set. -/
theorem c6_x_latch_witness :
    List.count MorseEvent.dot
        (runTicks ⟨false, false, false, 0, 0⟩
          [⟨true, false, true, false, false, 0⟩,
           ⟨true, false, true, false, false, 20⟩]).2 = 1
    ∧ (runTicks ⟨false, false, false, 0, 0⟩
          [⟨true, false, true, false, false, 0⟩,
           ⟨true, false, true, false, false, 20⟩]).1.x_tilted = true :=
  (c6_x_latch ⟨false, false, false, 0, 0⟩
    [⟨true, false, true, false, false, 0⟩, ⟨true, false, true, false, false, 20⟩]
    rfl (by decide) (by decide)).1

lemma motionStep_lmt (xt yt bp : Bool) (c t t' : Nat) (i : TickInput) :
    (motionStep ⟨xt, yt, bp, c, t⟩ i).2 = (motionStep ⟨xt, yt, bp, c, t'⟩ i).2
    ∧ (motionStep ⟨xt, yt, bp, c, t⟩ i).1 =
        { (motionStep ⟨xt, yt, bp, c, t'⟩ i).1 with last_movement_time := t } := by
  simp only [motionStep]
  split_ifs <;> simp

lemma buttonStep_lmt (xt yt bp : Bool) (c t t' : Nat) (bn : Bool) :
    (buttonStep ⟨xt, yt, bp, c, t⟩ bn).2 = (buttonStep ⟨xt, yt, bp, c, t'⟩ bn).2
    ∧ (buttonStep ⟨xt, yt, bp, c, t⟩ bn).1 =
        { (buttonStep ⟨xt, yt, bp, c, t'⟩ bn).1 with last_movement_time := t } := by
  simp only [buttonStep]
  split_ifs <;> simp

lemma motionStep_lmt_preserved (s : InputState) (i : TickInput) :
    (motionStep s i).1.last_movement_time = s.last_movement_time := by
  simp only [motionStep]
  split_ifs <;> rfl

lemma buttonStep_lmt_preserved (s : InputState) (bn : Bool) :
    (buttonStep s bn).1.last_movement_time = s.last_movement_time := by
  simp only [buttonStep]
  split_ifs <;> rfl

/-- C10: two ticks from states that differ only in `last_movement_time`
(and hence in the computed `movement_cooldown_expired` flag) emit exactly
the same events and produce the same latches, counter and button state -
the cooldown flag is computed but never consulted - while each run keeps
its own `last_movement_time` unchanged. -/
theorem c10_cooldown_independent (xt yt bp : Bool) (c t t' : Nat)
    (i : TickInput) :
    (tick ⟨xt, yt, bp, c, t⟩ i).2 = (tick ⟨xt, yt, bp, c, t'⟩ i).2
    ∧ (tick ⟨xt, yt, bp, c, t⟩ i).1.x_tilted =
        (tick ⟨xt, yt, bp, c, t'⟩ i).1.x_tilted
    ∧ (tick ⟨xt, yt, bp, c, t⟩ i).1.y_tilted =
        (tick ⟨xt, yt, bp, c, t'⟩ i).1.y_tilted
    ∧ (tick ⟨xt, yt, bp, c, t⟩ i).1.btn_prev =
        (tick ⟨xt, yt, bp, c, t'⟩ i).1.btn_prev
    ∧ (tick ⟨xt, yt, bp, c, t⟩ i).1.button_press_count =
        (tick ⟨xt, yt, bp, c, t'⟩ i).1.button_press_count
    ∧ (tick ⟨xt, yt, bp, c, t⟩ i).1.last_movement_time = t
    ∧ (tick ⟨xt, yt, bp, c, t'⟩ i).1.last_movement_time = t' := by
  have hm := motionStep_lmt xt yt bp c t t' i
  have hml := motionStep_lmt_preserved (⟨xt, yt, bp, c, t⟩ : InputState) i
  have hml' := motionStep_lmt_preserved (⟨xt, yt, bp, c, t'⟩ : InputState) i
  cases hma : (motionStep ⟨xt, yt, bp, c, t'⟩ i).1 with
  | mk a2 b2 p2 q2 r2 =>
      have hmt : (motionStep ⟨xt, yt, bp, c, t⟩ i).1 = ⟨a2, b2, p2, q2, t⟩ := by
        rw [hm.2, hma]
      have hr2 : r2 = t' := by
        rw [hma] at hml'
        exact hml'
      rw [hr2] at hma
      have hb := buttonStep_lmt a2 b2 p2 q2 t t' i.btn_now
      refine ⟨?_, ?_, ?_, ?_, ?_, ?_, ?_⟩
      · show (motionStep ⟨xt, yt, bp, c, t⟩ i).2
              ++ (buttonStep (motionStep ⟨xt, yt, bp, c, t⟩ i).1 i.btn_now).2
            = (motionStep ⟨xt, yt, bp, c, t'⟩ i).2
              ++ (buttonStep (motionStep ⟨xt, yt, bp, c, t'⟩ i).1 i.btn_now).2
        rw [hm.1, hmt, hma, hb.1]
      · show (buttonStep (motionStep ⟨xt, yt, bp, c, t⟩ i).1 i.btn_now).1.x_tilted
            = (buttonStep (motionStep ⟨xt, yt, bp, c, t'⟩ i).1 i.btn_now).1.x_tilted
        rw [hmt, hma, hb.2]
      · show (buttonStep (motionStep ⟨xt, yt, bp, c, t⟩ i).1 i.btn_now).1.y_tilted
            = (buttonStep (motionStep ⟨xt, yt, bp, c, t'⟩ i).1 i.btn_now).1.y_tilted
        rw [hmt, hma, hb.2]
      · show (buttonStep (motionStep ⟨xt, yt, bp, c, t⟩ i).1 i.btn_now).1.btn_prev
            = (buttonStep (motionStep ⟨xt, yt, bp, c, t'⟩ i).1 i.btn_now).1.btn_prev
        rw [hmt, hma, hb.2]
      · show (buttonStep (motionStep ⟨xt, yt, bp, c, t⟩ i).1
              i.btn_now).1.button_press_count
            = (buttonStep (motionStep ⟨xt, yt, bp, c, t'⟩ i).1
              i.btn_now).1.button_press_count
        rw [hmt, hma, hb.2]
      · show (buttonStep (motionStep ⟨xt, yt, bp, c, t⟩ i).1
              i.btn_now).1.last_movement_time = t
        rw [buttonStep_lmt_preserved, hml]
      · show (buttonStep (motionStep ⟨xt, yt, bp, c, t'⟩ i).1
              i.btn_now).1.last_movement_time = t'
        rw [buttonStep_lmt_preserved]
        rw [hma]

end MorseHat
